import Mathlib

/-!
Shallow embedding of the beton slab allocator (src/slab.rs, src/indexer/*,
src/iter/*) together with the reference oracle of its differential test, and
proofs checking the specification's claims against it.

Machine integers (usize) are modelled as Nat with wrapping arithmetic made
explicit where the source can overflow; abnormal outcomes (index
out-of-bounds panics, unwrap of None, reads of uninitialized slots) are
modelled by an explicit error result.  Debug assertions are not modelled
(release semantics), as the spec itself says the public contract must not
rely on them.
-/

namespace Beton

/-- Outcome of running an operation of the Rust source: either a normal
result, or an abnormal stop (an out-of-bounds panic, an unwrap of None, or
an undefined read of an uninitialized slot). -/
inductive Res (α : Type) : Type
  | ok (a : α) : Res α
  | err : Res α
deriving DecidableEq

/-- Map over a normal result. -/
def Res.map (f : α → β) : Res α → Res β
  | .ok a => .ok (f a)
  | .err => .err

/-- Element lookup in a list, the model of Vec and slice indexing (none is
out of bounds). -/
def getAt : List α → Nat → Option α
  | [], _ => none
  | x :: _, 0 => some x
  | _ :: l, n + 1 => getAt l n

/-- In-place update of one element, the model of an in-bounds slot write
(out of range it leaves the list unchanged; call sites guard the bound). -/
def setAt : List α → Nat → α → List α
  | [], _, _ => []
  | _ :: l, 0, a => a :: l
  | x :: l, n + 1, a => x :: setAt l n a

/-- Model of Vec::insert: shifts the suffix right; none when the position
exceeds the length (Rust panics there). -/
def insAt : Nat → α → List α → Option (List α)
  | 0, a, l => some (a :: l)
  | _ + 1, _, [] => none
  | n + 1, a, x :: l => (insAt n a l).map (x :: ·)

/-- The list s, s+1, ..., s+n-1. -/
def rng : Nat → Nat → List Nat
  | _, 0 => []
  | s, n + 1 => s :: rng (s + 1) n

/-- Modulus of usize (the sources target a 64-bit platform: usize::BITS and
u64::BITS are both 64). -/
def U : Nat := 2 ^ 64

/-- usize::MAX, the all-ones word the free-slot scan compares against. -/
def usizeMax : Nat := U - 1

/-- Wrapping usize addition (release-build overflow semantics). -/
def wadd (a b : Nat) : Nat := (a + b) % U

/-- Wrapping usize subtraction (release-build overflow semantics). -/
def wsub (a b : Nat) : Nat := (a % U + (U - b % U)) % U

/-- usize::count_ones on a 64-bit word: the number of set bits among
positions 0..63. -/
def popcount (e : Nat) : Nat := ((rng 0 64).filter (fun i => e.testBit i)).length

/-- compute_index from src/indexer/utils.rs (identical copy in
src/indexer/bit_vec/mod.rs): word position and bit mask of a position. -/
def computeIndex (i : Nat) : Nat × Nat := (i / 64, 1 <<< (i % 64))

/-- BitArray over CAPACITY = 2 inline words (src/indexer/bit_array/mod.rs,
with the const N instantiated at the crate's CAPACITY = 2). -/
structure BitArray where
  e0 : Nat
  e1 : Nat
deriving DecidableEq

/-- Read of entries[w] through the bounds-checked get (none out of range). -/
def BitArray.word? (b : BitArray) (w : Nat) : Option Nat :=
  if w = 0 then some b.e0 else if w = 1 then some b.e1 else none

/-- Write of entries[w]; call sites only reach it with w < 2. -/
def BitArray.setWord (b : BitArray) (w x : Nat) : BitArray :=
  if w = 0 then { b with e0 := x } else if w = 1 then { b with e1 := x } else b

/-- BitArray::new. -/
def BitArray.new : BitArray := ⟨0, 0⟩

/-- BitArray::capacity: usize::BITS * N = 64 * 2. -/
def BitArray.capacity (_ : BitArray) : Nat := 64 * 2

/-- BitArray::contains. -/
def BitArray.contains (b : BitArray) (i : Nat) : Bool :=
  let p := computeIndex i
  match b.word? p.1 with
  | some e => e &&& p.2 == p.2
  | none => false

/-- BitArray::insert: entries[index] |= mask (a slice-index panic when the
word position is out of range, which callers prevent). -/
def BitArray.insert (b : BitArray) (i : Nat) : Res BitArray :=
  let p := computeIndex i
  match b.word? p.1 with
  | some e => .ok (b.setWord p.1 (e ||| p.2))
  | none => .err

/-- BitArray::remove.  Note the source computes ret = self.contains(index)
after index has been shadowed by the word position, so the returned Bool
tests position index/64, not index; entry &= !mask is the conjunction with
usizeMax ^^^ mask, the 64-bit complement of the mask. -/
def BitArray.remove (b : BitArray) (i : Nat) : BitArray × Bool :=
  let p := computeIndex i
  let ret := b.contains p.1
  match b.word? p.1 with
  | some e => (b.setWord p.1 (e &&& (usizeMax ^^^ p.2)), ret)
  | none => (b, false)

/-- BitArray::len: sum of count_ones over the words. -/
def BitArray.len (b : BitArray) : Nat := popcount b.e0 + popcount b.e1

/-- BitArray::is_empty. -/
def BitArray.isEmpty (b : BitArray) : Bool := b.e0 == 0 && b.e1 == 0

/-- BitArray::clear: fill with zeros. -/
def BitArray.clear (_ : BitArray) : BitArray := ⟨0, 0⟩

/-- One full pass of the UnOccupied scan loop (bit_array/unoccupied.rs and
bit_vec/unoccupied.rs share it verbatim): iterate positions from the cursor
up to the capacity, peeking at the whole word at each word boundary (a
slice-index panic if that word is out of range) and skipping the position
when the word is all ones, otherwise returning the first position whose bit
is clear.  The fuel is the length of the remaining range. -/
def scanUnocc (contains : Nat → Bool) (word? : Nat → Option Nat) :
    Nat → Nat → Res (Option Nat)
  | 0, _ => .ok none
  | fuel + 1, idx =>
    if idx % 64 == 0 then
      match word? (idx / 64) with
      | none => .err
      | some e =>
        if e == usizeMax then scanUnocc contains word? fuel (idx + 1)
        else if contains idx then scanUnocc contains word? fuel (idx + 1)
        else .ok (some idx)
    else
      if contains idx then scanUnocc contains word? fuel (idx + 1)
      else .ok (some idx)

/-- UnOccupied::new followed by one next() on a BitArray: remaining starts
at capacity - len and gates the scan; every caller in the crate takes only
this first element. -/
def BitArray.unoccFirst (b : BitArray) : Res (Option Nat) :=
  let remaining := wsub b.capacity b.len
  if remaining == 0 then .ok none
  else scanUnocc b.contains b.word? b.capacity 0

/-- BitVec, the dynamic backend (src/indexer/bit_vec/mod.rs).  vcap models
the backing Vec's allocated word capacity, at its minimum guaranteed value,
because BitVec::capacity reads Vec::capacity rather than the length. -/
structure BitVec where
  entries : List Nat
  count : Nat
  vcap : Nat
deriving DecidableEq

/-- BitVec::with_capacity: vec![0; capacity] allocates capacity words. -/
def BitVec.withCapacity (c : Nat) : BitVec := ⟨List.replicate c 0, 0, c⟩

/-- BitVec::capacity: usize::BITS * entries.capacity(). -/
def BitVec.capacity (v : BitVec) : Nat := 64 * v.vcap

/-- Read of entries[w] through the bounds-checked get. -/
def BitVec.word? (v : BitVec) (w : Nat) : Option Nat := getAt v.entries w

/-- BitVec::contains. -/
def BitVec.contains (v : BitVec) (i : Nat) : Bool :=
  let p := computeIndex i
  match v.word? p.1 with
  | some e => e &&& p.2 == p.2
  | none => false

/-- BitVec::insert: entries[index] |= mask (panic out of range), then
count += 1 unconditionally, even if the bit was already set. -/
def BitVec.insert (v : BitVec) (i : Nat) : Res BitVec :=
  let p := computeIndex i
  match v.word? p.1 with
  | some e => .ok ⟨setAt v.entries p.1 (e ||| p.2), wadd v.count 1, v.vcap⟩
  | none => .err

/-- BitVec::remove: same shadowed ret = contains(word position) as
BitArray::remove, and count -= 1 runs whenever the word exists, even when
the bit was clear. -/
def BitVec.remove (v : BitVec) (i : Nat) : BitVec × Bool :=
  let p := computeIndex i
  let ret := v.contains p.1
  match v.word? p.1 with
  | some e => (⟨setAt v.entries p.1 (e &&& (usizeMax ^^^ p.2)), wsub v.count 1, v.vcap⟩, ret)
  | none => (v, false)

/-- BitVec::len: the stored counter. -/
def BitVec.len (v : BitVec) : Nat := v.count

/-- BitVec::is_empty. -/
def BitVec.isEmpty (v : BitVec) : Bool := v.count == 0

/-- BitVec::clear: fill words with zero, reset the counter. -/
def BitVec.clear (v : BitVec) : BitVec := ⟨v.entries.map (fun _ => 0), 0, v.vcap⟩

/-- BitVec::resize: Vec::resize on the words (the argument counts words
here), recounting only on shrink. -/
def BitVec.resize (v : BitVec) (n : Nat) : BitVec :=
  let old := v.entries.length
  let es := if n ≤ old then v.entries.take n
            else v.entries ++ List.replicate (n - old) 0
  { entries := es
    count := if n < old then (es.map popcount).foldr (· + ·) 0 else v.count
    vcap := max v.vcap n }

/-- UnOccupied::new followed by one next() on a BitVec. -/
def BitVec.unoccFirst (v : BitVec) : Res (Option Nat) :=
  let remaining := wsub v.capacity v.len
  if remaining == 0 then .ok none
  else scanUnocc v.contains v.word? v.capacity 0

/-- Cursor and remaining counter shared by the Occupied and IntoOccupied
iterators of both backends. -/
structure OccSt where
  cursor : Nat
  remaining : Nat
deriving DecidableEq

/-- First position at or after i whose bit is set, within the given fuel
(the length of the rest of the scanned range). -/
def findSet (contains : Nat → Bool) : Nat → Nat → Option Nat
  | 0, _ => none
  | fuel + 1, i => if contains i then some i else findSet contains fuel (i + 1)

/-- One next() of the Occupied / IntoOccupied loop: nothing once remaining
is 0, otherwise the first set position from the cursor (cursor advances one
past it, remaining decreases). -/
def occNext (contains : Nat → Bool) (cap : Nat) (s : OccSt) : Option Nat × OccSt :=
  if s.remaining == 0 then (none, s)
  else
    match findSet contains (cap - s.cursor) s.cursor with
    | some i => (some i, ⟨i + 1, s.remaining - 1⟩)
    | none => (none, ⟨cap, s.remaining⟩)

/-- The list of positions produced by repeatedly calling next; with fuel at
least the initial remaining counter this is the iterator's whole output. -/
def occStream (contains : Nat → Bool) (cap : Nat) : Nat → OccSt → List Nat
  | 0, _ => []
  | fuel + 1, s =>
    match occNext contains cap s with
    | (some i, s') => i :: occStream contains cap fuel s'
    | (none, _) => []

/-- Full drain of BitArray::occupied / into_occupied: cursor 0, remaining =
len, and the iterator can yield at most remaining items, so fuel = len is
exact. -/
def BitArray.occList (b : BitArray) : List Nat :=
  occStream b.contains b.capacity b.len ⟨0, b.len⟩

/-- The Indexer with its two runtime-switched backends
(src/indexer/mod.rs; the inline word budget CAPACITY is 2). -/
inductive Indexer
  | arr (b : BitArray)
  | vec (v : BitVec)
deriving DecidableEq

/-- Indexer::new: starts inline. -/
def Indexer.new : Indexer := .arr BitArray.new

/-- Indexer::with_capacity: inline below u64::BITS * CAPACITY = 128 bits,
otherwise a BitVec::with_capacity of the requested number (of words). -/
def Indexer.withCapacity (c : Nat) : Indexer :=
  if c < 64 * 2 then .new else .vec (BitVec.withCapacity c)

/-- Indexer::contains. -/
def Indexer.contains : Indexer → Nat → Bool
  | .arr b, i => b.contains i
  | .vec v, i => v.contains i

/-- Indexer::len. -/
def Indexer.len : Indexer → Nat
  | .arr b => b.len
  | .vec v => v.len

/-- Indexer::is_empty. -/
def Indexer.isEmpty : Indexer → Bool
  | .arr b => b.isEmpty
  | .vec v => v.isEmpty

/-- Indexer::capacity. -/
def Indexer.capacity : Indexer → Nat
  | .arr b => b.capacity
  | .vec v => v.capacity

/-- Indexer::clear. -/
def Indexer.clear : Indexer → Indexer
  | .arr b => .arr b.clear
  | .vec v => .vec v.clear

/-- Indexer::remove: plain dispatch. -/
def Indexer.remove : Indexer → Nat → Indexer × Bool
  | .arr b, i => let r := b.remove i; (.arr r.1, r.2)
  | .vec v, i => let r := v.remove i; (.vec r.1, r.2)

/-- The promotion copy loop of Indexer::resize: for index in arr.occupied()
insert it into the fresh BitVec. -/
def copyInto (l : List Nat) (v : BitVec) : Res BitVec :=
  match l with
  | [] => .ok v
  | i :: t =>
    match v.insert i with
    | .ok v' => copyInto t v'
    | .err => .err

/-- Indexer::resize: BitVec resizes in place; a BitArray is promoted to a
BitVec::with_capacity(new_len) with every set bit copied forward whenever
new_len exceeds the inline capacity, and is left untouched otherwise. -/
def Indexer.resize : Indexer → Nat → Res Indexer
  | .vec v, n => .ok (.vec (v.resize n))
  | .arr b, n =>
    if n > b.capacity then (copyInto b.occList (BitVec.withCapacity n)).map .vec
    else .ok (.arr b)

/-- Indexer::insert.  On the inline backend an index at or beyond the
capacity first runs self.resize(capacity * 2) and then retries the insert;
that resize always promotes (capacity * 2 > capacity), so the retry is the
BitVec branch - the arr fallback spells out the one further unfolding of
the recursion and is unreachable. -/
def Indexer.insert : Indexer → Nat → Res Indexer
  | .vec v, i => (v.insert i).map .vec
  | .arr b, i =>
    if i ≥ b.capacity then
      match Indexer.resize (.arr b) (b.capacity * 2) with
      | .err => .err
      | .ok (.vec v) => (v.insert i).map .vec
      | .ok (.arr b') => (b'.insert i).map .arr
    else (b.insert i).map .arr

/-- Indexer-level UnOccupied next (src/indexer/mod.rs): the BitVec answer
is passed through, but an exhausted BitArray answer is replaced by
Some(u64::BITS * CAPACITY) = Some(128), the sentinel that triggers
promotion on the subsequent insert. -/
def Indexer.unoccFirst : Indexer → Res (Option Nat)
  | .vec v => v.unoccFirst
  | .arr b =>
    match b.unoccFirst with
    | .ok (some i) => .ok (some i)
    | .ok none => .ok (some (64 * 2))
    | .err => .err

/-- Full drain of Indexer::occupied / into_occupied. -/
def Indexer.occList (x : Indexer) : List Nat :=
  occStream x.contains x.capacity x.len ⟨0, x.len⟩

/-- The Slab (src/slab.rs): the Indexer plus the Vec of MaybeUninit slots;
none models an uninitialized slot. -/
structure Slab (T : Type) where
  index : Indexer
  entries : List (Option T)
deriving DecidableEq

/-- Slab::new = Slab::with_capacity(0). -/
def Slab.new (T : Type) : Slab T := ⟨Indexer.withCapacity 0, []⟩

/-- Slab::with_capacity: Vec::with_capacity allocates room but the Vec's
length stays 0, so the slot list starts empty. -/
def Slab.withCapacity (T : Type) (c : Nat) : Slab T := ⟨Indexer.withCapacity c, []⟩

/-- Slab::len. -/
def Slab.len (s : Slab T) : Nat := s.index.len

/-- Slab::capacity. -/
def Slab.capacity (s : Slab T) : Nat := s.index.capacity

/-- Slab::is_empty. -/
def Slab.isEmpty (s : Slab T) : Bool := s.index.isEmpty

/-- Slab::contains_key (a Key is its wrapped position: src/key.rs). -/
def Slab.containsKey (s : Slab T) (k : Nat) : Bool := s.index.contains k

/-- Slab::get: membership test first, then Vec::get (None out of range)
and assume_init_ref, an undefined read if the slot is uninitialized. -/
def Slab.get (s : Slab T) (k : Nat) : Res (Option T) :=
  if s.containsKey k then
    match getAt s.entries k with
    | some (some v) => .ok (some v)
    | some none => .err
    | none => .ok none
  else .ok none

/-- Slab::insert: first free position from the unoccupied iterator
(unwrap panics on None), mark it in the index, then Vec::insert the value
at that position - Vec::insert, which shifts the suffix and panics when the
position exceeds the Vec's length. -/
def Slab.insertR (s : Slab T) (v : T) : Res (Nat × Slab T) :=
  match s.index.unoccFirst with
  | .err => .err
  | .ok none => .err
  | .ok (some idx) =>
    match s.index.insert idx with
    | .err => .err
    | .ok ix =>
      match insAt idx (some v) s.entries with
      | none => .err
      | some es => .ok (idx, ⟨ix, es⟩)

/-- Slab::remove: Indexer::remove always runs; when it reports a hit the
slot is swapped out through a panicking Vec index and assume_init (an
undefined read if the slot is uninitialized). -/
def Slab.removeR (s : Slab T) (k : Nat) : Res (Option T × Slab T) :=
  let r := s.index.remove k
  if r.2 then
    match getAt s.entries k with
    | none => .err
    | some none => .err
    | some (some v) => .ok (some v, ⟨r.1, setAt s.entries k none⟩)
  else .ok (none, ⟨r.1, s.entries⟩)

/-- Slab::clear returning also the list of values whose destructor runs:
index.clear() plus entries.clear().  Vec::clear drops each element, but the
elements are MaybeUninit wrappers whose destructor never runs the inner
value's destructor, so no stored value is dropped. -/
def Slab.clearD (s : Slab T) : Slab T × List T := (⟨s.index.clear, []⟩, [])

/-- Slab::resize: index.resize(new_len) then resize_with on the slots,
filling with uninitialized slots. -/
def Slab.resizeR (s : Slab T) (n : Nat) : Res (Slab T) :=
  (s.index.resize n).map fun ix =>
    ⟨ix, if n ≤ s.entries.length then s.entries.take n
         else s.entries ++ List.replicate (n - s.entries.length) none⟩

/-- Slab::reserve: resize to index.capacity() + additional (usize add). -/
def Slab.reserveR (s : Slab T) (a : Nat) : Res (Slab T) :=
  s.resizeR (wadd s.index.capacity a)

/-- State of IntoIter / IntoValues (src/iter/into_iter.rs,
src/iter/into_values.rs): the Slab decomposed into the consuming occupied
iterator over its index and the raw slot Vec, bypassing Slab::drop. -/
structure IntoIterSt (T : Type) where
  inner : Indexer
  occ : OccSt
  entries : List (Option T)
deriving DecidableEq

/-- IntoIter::new: IntoOccupied starts at cursor 0 with remaining = len. -/
def IntoIterSt.init (s : Slab T) : IntoIterSt T :=
  ⟨s.index, ⟨0, s.index.len⟩, s.entries⟩

/-- IntoIter::next: take the next occupied position, mem::replace the slot
with uninit and assume_init the old contents (panic out of range, undefined
on a vacant slot). -/
def IntoIterSt.next (s : IntoIterSt T) : Res (Option (Nat × T) × IntoIterSt T) :=
  match occNext s.inner.contains s.inner.capacity s.occ with
  | (none, occ) => .ok (none, { s with occ := occ })
  | (some idx, occ) =>
    match getAt s.entries idx with
    | none => .err
    | some none => .err
    | some (some v) => .ok (some (idx, v), ⟨s.inner, occ, setAt s.entries idx none⟩)

/-- The Drop impl of IntoIter / IntoValues: drain the rest of the occupied
iterator, running assume_init_drop in place at each position; the returned
list is the sequence of values whose destructor runs.  The fuel is the
remaining counter, which bounds the number of further yields. -/
def teardownAux (inner : Indexer) : Nat → OccSt → List (Option T) → Res (List T)
  | 0, _, _ => .ok []
  | fuel + 1, occ, entries =>
    match occNext inner.contains inner.capacity occ with
    | (none, _) => .ok []
    | (some idx, occ') =>
      match getAt entries idx with
      | none => .err
      | some none => .err
      | some (some v) => (teardownAux inner fuel occ' entries).map (v :: ·)

/-- Values dropped when an IntoIter in state s is dropped. -/
def IntoIterSt.teardown (s : IntoIterSt T) : Res (List T) :=
  teardownAux s.inner s.occ.remaining s.occ s.entries

/-- n calls to IntoIter::next, collecting the yielded pairs. -/
def runIntoIter : Nat → IntoIterSt T → Res (List (Nat × T) × IntoIterSt T)
  | 0, s => .ok ([], s)
  | n + 1, s =>
    match s.next with
    | .err => .err
    | .ok (none, s') => .ok ([], s')
    | .ok (some p, s') => (runIntoIter n s').map (fun r => (p :: r.1, r.2))

/-- Consume a Slab with into_iter, yield n items, then drop the iterator:
the pairs yielded and the values dropped during teardown. -/
def Slab.intoIterPartial (s : Slab T) (n : Nat) : Res (List (Nat × T) × List T) :=
  match runIntoIter n (IntoIterSt.init s) with
  | .err => .err
  | .ok (ys, st) => st.teardown.map (fun ds => (ys, ds))

/-- State of ValuesMut (src/iter/values_mut.rs): the borrowing occupied
iterator, the slice iterator's position over the slot Vec, and the
previously visited index used to compute the skip. -/
structure ValuesMutSt (T : Type) where
  inner : Indexer
  occ : OccSt
  pos : Nat
  prevIndex : Option Nat
deriving DecidableEq

/-- ValuesMut::new. -/
def ValuesMutSt.init (s : Slab T) : ValuesMutSt T :=
  ⟨s.index, ⟨0, s.index.len⟩, 0, none⟩

/-- ValuesMut::next: advance the occupied iterator, skip
index - prev_index - 1 slice elements (0 when there is no previous index),
then yield the slice iterator's next slot through assume_init_mut.  The
yielded item is the slot's contents: none stands for the undefined read of
a vacant slot.  An exhausted slice iterator ends the view. -/
def ValuesMutSt.next (es : List (Option T)) (s : ValuesMutSt T) :
    Option (Option T) × ValuesMutSt T :=
  match occNext s.inner.contains s.inner.capacity s.occ with
  | (none, occ) => (none, { s with occ := occ })
  | (some idx, occ) =>
    let skip := match s.prevIndex with
      | none => 0
      | some p => idx - p - 1
    let pos := s.pos + skip
    match getAt es pos with
    | none => (none, { s with occ := occ, prevIndex := some idx, pos := pos })
    | some slot => (some slot, { s with occ := occ, prevIndex := some idx, pos := pos + 1 })

/-- The items ValuesMut yields, with fuel. -/
def valuesMutStream (es : List (Option T)) : Nat → ValuesMutSt T → List (Option T)
  | 0, _ => []
  | fuel + 1, s =>
    match ValuesMutSt.next es s with
    | (some it, s') => it :: valuesMutStream es fuel s'
    | (none, _) => []

/-- Everything slab.values_mut() yields (fuel = len is exact since each
yield consumes one unit of the occupied iterator's remaining counter). -/
def Slab.valuesMutList (s : Slab T) : List (Option T) :=
  valuesMutStream s.entries s.index.len (ValuesMutSt.init s)

/-- Modelled from the spec: the reference oracle of the differential test.
tests/differential.rs drives the external slab crate, which is not part of
this repository; the spec's external-collaborator contract describes it as
any conforming slot allocator.  insert stores the value at the lowest
vacant position (or appends a new slot) and returns that position; get,
remove and contains are ordinary map operations on occupied positions;
clear empties it; reserve changes no observable result. -/
structure Oracle (T : Type) where
  slots : List (Option T)
deriving DecidableEq

/-- Lowest vacant position in the oracle's slots, if any. -/
def firstVacant : List (Option T) → Nat → Option Nat
  | [], _ => none
  | none :: _, i => some i
  | some _ :: l, i => firstVacant l (i + 1)

/-- Oracle insert: lowest vacant slot, else append. -/
def Oracle.insert (o : Oracle T) (v : T) : Nat × Oracle T :=
  match firstVacant o.slots 0 with
  | some i => (i, ⟨setAt o.slots i (some v)⟩)
  | none => (o.slots.length, ⟨o.slots ++ [some v]⟩)

/-- Oracle get. -/
def Oracle.get (o : Oracle T) (i : Nat) : Option T :=
  match getAt o.slots i with
  | some (some v) => some v
  | _ => none

/-- Oracle try_remove. -/
def Oracle.remove (o : Oracle T) (i : Nat) : Option T × Oracle T :=
  match getAt o.slots i with
  | some (some v) => (some v, ⟨setAt o.slots i none⟩)
  | _ => (none, o)

/-- Oracle contains. -/
def Oracle.containsKey (o : Oracle T) (i : Nat) : Bool := (o.get i).isSome

/-- Oracle clear. -/
def Oracle.clear (_ : Oracle T) : Oracle T := ⟨[]⟩

/-- One operation of the differential test (tests/differential.rs). -/
inductive Op
  | ins (v : Nat)
  | fetch (i : Nat)
  | rem (i : Nat)
  | has (i : Nat)
  | clr
  | reserve (n : Nat)
deriving DecidableEq

/-- One observable result of an operation. -/
inductive Obs
  | key (k : Nat)
  | fetched (o : Option Nat)
  | removed (o : Option Nat)
  | mem (b : Bool)
  | unit
deriving DecidableEq

/-- Drive the beton Slab through an operation sequence, recording every
observable result; err if any operation stops abnormally. -/
def runBeton : List Op → Slab Nat → Res (List Obs)
  | [], _ => .ok []
  | op :: t, s =>
    match op with
    | .ins v =>
      match s.insertR v with
      | .err => .err
      | .ok r => (runBeton t r.2).map (Obs.key r.1 :: ·)
    | .fetch i =>
      match s.get i with
      | .err => .err
      | .ok o => (runBeton t s).map (Obs.fetched o :: ·)
    | .rem i =>
      match s.removeR i with
      | .err => .err
      | .ok r => (runBeton t r.2).map (Obs.removed r.1 :: ·)
    | .has i => (runBeton t s).map (Obs.mem (s.containsKey i) :: ·)
    | .clr => (runBeton t (s.clearD).1).map (Obs.unit :: ·)
    | .reserve n =>
      match s.reserveR n with
      | .err => .err
      | .ok s' => (runBeton t s').map (Obs.unit :: ·)

/-- Drive the oracle through the same operation sequence. -/
def runOracle : List Op → Oracle Nat → List Obs
  | [], _ => []
  | op :: t, o =>
    match op with
    | .ins v => let r := o.insert v; Obs.key r.1 :: runOracle t r.2
    | .fetch i => Obs.fetched (o.get i) :: runOracle t o
    | .rem i => let r := o.remove i; Obs.removed r.1 :: runOracle t r.2
    | .has i => Obs.mem (o.containsKey i) :: runOracle t o
    | .clr => Obs.unit :: runOracle t o.clear
    | .reserve _ => Obs.unit :: runOracle t o

/-- The slab after insert(10) from Slab::new: key 0 issued. -/
def slabA : Slab Nat := ⟨.arr ⟨1, 0⟩, [some 10]⟩

/-- The slab after insert(10); insert(11): keys 0 and 1 issued. -/
def slabB : Slab Nat := ⟨.arr ⟨3, 0⟩, [some 10, some 11]⟩

/-- The slab after insert(10); insert(11); remove(0): key 1 still occupied,
slot 0 vacant. -/
def slabC : Slab Nat := ⟨.arr ⟨2, 0⟩, [none, some 11]⟩

/-- The slab after insert(10); insert(11); remove(0); insert(12): the
Vec::insert of 12 at position 0 shifted the suffix, so slot 1 is the
vacated uninitialized slot and 11 now sits at slot 2. -/
def slabD : Slab Nat := ⟨.arr ⟨3, 0⟩, [some 12, none, some 11]⟩

/-- A full dynamic-backend slab: every one of the 8192 addressable
positions is occupied.  It is reached from Slab::with_capacity(128) (which
allocates a 128-word BitVec) by 8192 insertions of 0. -/
def slabFull : Slab Nat :=
  ⟨.vec ⟨List.replicate 128 usizeMax, 8192, 128⟩, List.replicate 8192 (some 0)⟩

/-- The differential-test operation sequence insert 10, insert 11,
remove 0, remove 1. -/
def diffOps : List Op := [Op.ins 10, Op.ins 11, Op.rem 0, Op.rem 1]

theorem getAt_lt_length {l : List α} {n : Nat} {a : α} (h : getAt l n = some a) :
    n < l.length := by
  induction l generalizing n with
  | nil => simp [getAt] at h
  | cons x t ih =>
    cases n with
    | zero => simp
    | succ m => exact Nat.succ_lt_succ (ih h)

theorem exists_getAt_of_lt {l : List α} {n : Nat} (h : n < l.length) :
    ∃ a, getAt l n = some a := by
  induction l generalizing n with
  | nil => simp at h
  | cons x t ih =>
    cases n with
    | zero => exact ⟨x, rfl⟩
    | succ m => exact ih (Nat.lt_of_succ_lt_succ h)

theorem length_setAt (l : List α) (n : Nat) (a : α) :
    (setAt l n a).length = l.length := by
  induction l generalizing n with
  | nil => rfl
  | cons x t ih => cases n <;> simp [setAt, ih]

theorem getAt_setAt_self {l : List α} {n : Nat} (a : α) (h : n < l.length) :
    getAt (setAt l n a) n = some a := by
  induction l generalizing n with
  | nil => simp at h
  | cons x t ih =>
    cases n with
    | zero => rfl
    | succ m => exact ih (Nat.lt_of_succ_lt_succ h)

theorem getAt_setAt_of_ne {l : List α} {n m : Nat} (a : α) (h : m ≠ n) :
    getAt (setAt l n a) m = getAt l m := by
  induction l generalizing n m with
  | nil => rfl
  | cons x t ih =>
    cases n with
    | zero => cases m with
      | zero => exact absurd rfl h
      | succ k => rfl
    | succ n' => cases m with
      | zero => rfl
      | succ k => exact ih fun hk => h (by rw [hk])

theorem getAt_replicate (a : α) (n i : Nat) :
    getAt (List.replicate n a) i = if i < n then some a else none := by
  induction n generalizing i with
  | zero => simp [getAt]
  | succ m ih =>
    cases i with
    | zero => simp [List.replicate, getAt]
    | succ j => simp [List.replicate, getAt, ih, Nat.succ_lt_succ_iff]

theorem insAt_getAt {n : Nat} {a : α} {l l' : List α} (h : insAt n a l = some l') :
    getAt l' n = some a := by
  induction n generalizing l l' with
  | zero => simp [insAt] at h; simp [← h, getAt]
  | succ m ih =>
    cases l with
    | nil => simp [insAt] at h
    | cons x t =>
      simp [insAt, Option.map_eq_some'] at h
      obtain ⟨t', ht', rfl⟩ := h
      simpa [getAt] using ih ht'

theorem rng_length (s n : Nat) : (rng s n).length = n := by
  induction n generalizing s with
  | zero => rfl
  | succ m ih => simp [rng, ih]

theorem mem_rng {i s n : Nat} : i ∈ rng s n ↔ s ≤ i ∧ i < s + n := by
  induction n generalizing s with
  | zero => simp [rng]
  | succ m ih =>
    simp only [rng, List.mem_cons, ih]
    omega

theorem rng_nodup (s n : Nat) : (rng s n).Nodup := by
  induction n generalizing s with
  | zero => simp [rng]
  | succ m ih =>
    simp only [rng, List.nodup_cons]
    refine ⟨fun h => ?_, ih (s + 1)⟩
    rw [mem_rng] at h
    omega

theorem rng_append (s m n : Nat) : rng s (m + n) = rng s m ++ rng (s + m) n := by
  induction m generalizing s with
  | zero => simp [rng]
  | succ k ih =>
    rw [show k + 1 + n = (k + n) + 1 from by omega]
    simp only [rng, ih (s + 1), List.cons_append]
    rw [show s + 1 + k = s + (k + 1) from by omega]

theorem rng_add (k s n : Nat) : rng (s + k) n = (rng s n).map (· + k) := by
  induction n generalizing s with
  | zero => rfl
  | succ m ih =>
    simp only [rng, List.map_cons]
    rw [show s + k + 1 = s + 1 + k from by omega, ih (s + 1)]

theorem length_filter_map (l : List α) (f : α → β) (p : β → Bool) :
    ((l.map f).filter p).length = (l.filter fun x => p (f x)).length := by
  induction l with
  | nil => rfl
  | cons x t ih =>
    by_cases h : p (f x) = true
    · simp [List.filter, h, ih]
    · simp only [Bool.not_eq_true] at h
      simp [List.filter, h, ih]

theorem beq_and_pow (e k : Nat) : (e &&& 2 ^ k == 2 ^ k) = e.testBit k := by
  cases h : e.testBit k with
  | true =>
    rw [Nat.and_two_pow, h]
    simp
  | false =>
    rw [Nat.and_two_pow, h]
    simp only [Bool.toNat_false, Nat.zero_mul, beq_iff_eq]
    have : (0 : Nat) ≠ 2 ^ k := (Nat.two_pow_pos k).ne
    simp [this]

theorem shiftLeft_one_eq (k : Nat) : (1 <<< k) = 2 ^ k := by
  rw [Nat.shiftLeft_eq, Nat.one_mul]

/-- Normal form of BitArray::contains: bit i of the first word below 64,
bit i - 64 of the second below 128, false beyond. -/
theorem BitArray.contains_eq_testBit (b : BitArray) (i : Nat) :
    b.contains i =
      (if i < 64 then b.e0.testBit i
       else if i < 128 then b.e1.testBit (i - 64) else false) := by
  unfold BitArray.contains computeIndex BitArray.word?
  by_cases h0 : i < 64
  · have hd : i / 64 = 0 := Nat.div_eq_of_lt h0
    have hm : i % 64 = i := Nat.mod_eq_of_lt h0
    simp [hd, hm, shiftLeft_one_eq, beq_and_pow, h0]
  · by_cases h1 : i < 128
    · have hd : i / 64 = 1 := by omega
      have hm : i % 64 = i - 64 := by omega
      simp [hd, hm, shiftLeft_one_eq, beq_and_pow, h0, h1]
    · have hd : ¬(i / 64 = 0) := by omega
      have hd' : ¬(i / 64 = 1) := by omega
      simp [hd, hd', h0, h1]

/-- BitVec::contains reads the word at i / 64 and tests bit i % 64. -/
theorem BitVec.contains_testBit_of_word (v : BitVec) (i e : Nat)
    (h : getAt v.entries (i / 64) = some e) :
    v.contains i = e.testBit (i % 64) := by
  unfold BitVec.contains computeIndex BitVec.word?
  simp [h, shiftLeft_one_eq, ← Nat.and_two_pow, beq_and_pow]

/-- BitVec::contains is false when the word is out of range. -/
theorem BitVec.contains_eq_false_of_none (v : BitVec) (i : Nat)
    (h : getAt v.entries (i / 64) = none) :
    v.contains i = false := by
  unfold BitVec.contains computeIndex BitVec.word?
  simp [h]

/-- BitArray::contains in terms of word? and testBit. -/
theorem BitArray.contains_word (b : BitArray) (j : Nat) :
    b.contains j = ((b.word? (j / 64)).map fun e => e.testBit (j % 64)).getD false := by
  simp only [BitArray.contains, computeIndex]
  cases hw : b.word? (j / 64) with
  | none => simp [hw]
  | some e => simp [hw, shiftLeft_one_eq, beq_and_pow]

/-- BitVec::contains in terms of word? and testBit. -/
theorem BitVec.contains_word_vec (v : BitVec) (j : Nat) :
    v.contains j = ((v.word? (j / 64)).map fun e => e.testBit (j % 64)).getD false := by
  simp only [BitVec.contains, computeIndex]
  cases hw : v.word? (j / 64) with
  | none => simp [hw]
  | some e => simp [hw, shiftLeft_one_eq, beq_and_pow]

/-- An all-ones word at a word boundary forces contains to hold there - the
side condition the unoccupied scan's word-skip branch relies on. -/
theorem contains_of_word_max {contains : Nat → Bool} {word? : Nat → Option Nat}
    (hcw : ∀ j, contains j = ((word? (j / 64)).map fun e => e.testBit (j % 64)).getD false)
    (j : Nat) (hj : j % 64 = 0) (hw : word? (j / 64) = some usizeMax) :
    contains j = true := by
  rw [hcw, hw, hj]
  show usizeMax.testBit 0 = true
  decide

/-- A successful unoccupied scan returns the first clear position at or
after the start of the range: every position strictly below it in the
range is set. -/
theorem scanUnocc_ok_some {contains : Nat → Bool} {word? : Nat → Option Nat}
    (Hmax : ∀ j, j % 64 = 0 → word? (j / 64) = some usizeMax → contains j = true) :
    ∀ fuel a idx, scanUnocc contains word? fuel a = .ok (some idx) →
      a ≤ idx ∧ idx < a + fuel ∧ contains idx = false ∧
      ∀ j, a ≤ j → j < idx → contains j = true := by
  intro fuel
  induction fuel with
  | zero => intro a idx h; simp [scanUnocc] at h
  | succ f ih =>
    intro a idx h
    simp only [scanUnocc] at h
    by_cases hm : (a % 64 == 0) = true
    · rw [if_pos hm] at h
      cases hw : word? (a / 64) with
      | none => rw [hw] at h; exact absurd h (by simp)
      | some e =>
        rw [hw] at h
        dsimp only at h
        by_cases hmax : (e == usizeMax) = true
        · rw [if_pos hmax] at h
          have hca : contains a = true :=
            Hmax a (by simpa using hm) (by rw [hw]; congr 1; exact eq_of_beq hmax)
          obtain ⟨h1, h2, h3, h4⟩ := ih (a + 1) idx h
          refine ⟨by omega, by omega, h3, fun j hja hji => ?_⟩
          rcases Nat.eq_or_lt_of_le hja with rfl | hlt
          · exact hca
          · exact h4 j hlt hji
        · rw [if_neg hmax] at h
          by_cases hc : contains a = true
          · rw [if_pos hc] at h
            obtain ⟨h1, h2, h3, h4⟩ := ih (a + 1) idx h
            refine ⟨by omega, by omega, h3, fun j hja hji => ?_⟩
            rcases Nat.eq_or_lt_of_le hja with rfl | hlt
            · exact hc
            · exact h4 j hlt hji
          · rw [if_neg hc] at h
            have : a = idx := by
              have := h
              simp at this
              omega
            subst this
            exact ⟨Nat.le_refl a, by omega, by simpa using hc, fun j hja hji => by omega⟩
    · rw [if_neg hm] at h
      by_cases hc : contains a = true
      · rw [if_pos hc] at h
        obtain ⟨h1, h2, h3, h4⟩ := ih (a + 1) idx h
        refine ⟨by omega, by omega, h3, fun j hja hji => ?_⟩
        rcases Nat.eq_or_lt_of_le hja with rfl | hlt
        · exact hc
        · exact h4 j hlt hji
      · rw [if_neg hc] at h
        have : a = idx := by
          have := h
          simp at this
          omega
        subst this
        exact ⟨Nat.le_refl a, by omega, by simpa using hc, fun j hja hji => by omega⟩

/-- An exhausted unoccupied scan means every position of the scanned range
is set. -/
theorem scanUnocc_ok_none {contains : Nat → Bool} {word? : Nat → Option Nat}
    (Hmax : ∀ j, j % 64 = 0 → word? (j / 64) = some usizeMax → contains j = true) :
    ∀ fuel a, scanUnocc contains word? fuel a = .ok none →
      ∀ j, a ≤ j → j < a + fuel → contains j = true := by
  intro fuel
  induction fuel with
  | zero => intro a h j h1 h2; omega
  | succ f ih =>
    intro a h j h1 h2
    simp only [scanUnocc] at h
    by_cases hm : (a % 64 == 0) = true
    · rw [if_pos hm] at h
      cases hw : word? (a / 64) with
      | none => rw [hw] at h; exact absurd h (by simp)
      | some e =>
        rw [hw] at h
        dsimp only at h
        by_cases hmax : (e == usizeMax) = true
        · rw [if_pos hmax] at h
          have hca : contains a = true :=
            Hmax a (by simpa using hm) (by rw [hw]; congr 1; exact eq_of_beq hmax)
          rcases Nat.eq_or_lt_of_le h1 with rfl | hlt
          · exact hca
          · exact ih (a + 1) h j hlt (by omega)
        · rw [if_neg hmax] at h
          by_cases hc : contains a = true
          · rw [if_pos hc] at h
            rcases Nat.eq_or_lt_of_le h1 with rfl | hlt
            · exact hc
            · exact ih (a + 1) h j hlt (by omega)
          · rw [if_neg hc] at h
            exact absurd h (by simp)
    · rw [if_neg hm] at h
      by_cases hc : contains a = true
      · rw [if_pos hc] at h
        rcases Nat.eq_or_lt_of_le h1 with rfl | hlt
        · exact hc
        · exact ih (a + 1) h j hlt (by omega)
      · rw [if_neg hc] at h
        exact absurd h (by simp)

theorem wsub_eq {a b : Nat} (ha : a < U) (hb : b ≤ a) : wsub a b = a - b := by
  have hU : U = 18446744073709551616 := by norm_num [U]
  unfold wsub
  rw [hU] at ha ⊢
  omega

theorem popcount_le (e : Nat) : popcount e ≤ 64 := by
  have h := List.length_filter_le (fun i => e.testBit i) (rng 0 64)
  rw [rng_length] at h
  exact h

theorem filter_length_all {p : α → Bool} :
    ∀ l : List α, (l.filter p).length = l.length → ∀ a ∈ l, p a = true := by
  intro l
  induction l with
  | nil => intro _ a ha; simp at ha
  | cons x t ih =>
    intro h a ha
    by_cases hx : p x = true
    · rw [List.filter_cons, if_pos hx] at h
      simp only [List.length_cons, Nat.add_right_cancel_iff] at h
      rcases List.mem_cons.mp ha with rfl | hat
      · exact hx
      · exact ih h a hat
    · rw [List.filter_cons, if_neg hx] at h
      have := List.length_filter_le p t
      simp only [List.length_cons] at h
      omega

theorem popcount_full {e : Nat} (h : popcount e = 64) :
    ∀ k, k < 64 → e.testBit k = true := by
  intro k hk
  have hlen : ((rng 0 64).filter fun i => e.testBit i).length = (rng 0 64).length := by
    rw [rng_length]
    exact h
  exact filter_length_all (rng 0 64) hlen k (mem_rng.mpr ⟨Nat.zero_le k, by omega⟩)

theorem BitArray.contains_of_len_128 {b : BitArray} (h : b.len = 128) :
    ∀ j, j < 128 → b.contains j = true := by
  have he0 := popcount_le b.e0
  have he1 := popcount_le b.e1
  unfold BitArray.len at h
  have h0 : popcount b.e0 = 64 := by omega
  have h1 : popcount b.e1 = 64 := by omega
  intro j hj
  rw [BitArray.contains_eq_testBit]
  by_cases hj0 : j < 64
  · simp [hj0, popcount_full h0 j hj0]
  · simp [hj0, hj, popcount_full h1 (j - 64) (by omega)]

theorem BitArray.unoccFirst_none {b : BitArray} (h : b.unoccFirst = .ok none) :
    ∀ j, j < 128 → b.contains j = true := by
  unfold BitArray.unoccFirst at h
  by_cases hr : (wsub b.capacity b.len == 0) = true
  · have hle : b.len ≤ 128 := by
      have := popcount_le b.e0
      have := popcount_le b.e1
      unfold BitArray.len
      omega
    have hw : wsub b.capacity b.len = 0 := eq_of_beq hr
    rw [show b.capacity = 128 from rfl] at hw
    rw [wsub_eq (by norm_num [U]) hle] at hw
    exact BitArray.contains_of_len_128 (by omega)
  · rw [if_neg hr] at h
    have Hmax := contains_of_word_max (BitArray.contains_word b)
    have hall := scanUnocc_ok_none Hmax b.capacity 0 h
    intro j hj
    exact hall j (Nat.zero_le j) (by simpa using hj)

theorem BitArray.unoccFirst_some {b : BitArray} {idx : Nat}
    (h : b.unoccFirst = .ok (some idx)) :
    idx < 128 ∧ b.contains idx = false ∧ ∀ j, j < idx → b.contains j = true := by
  unfold BitArray.unoccFirst at h
  by_cases hr : (wsub b.capacity b.len == 0) = true
  · rw [if_pos hr] at h
    exact absurd h (by simp)
  · rw [if_neg hr] at h
    have Hmax := contains_of_word_max (BitArray.contains_word b)
    obtain ⟨h1, h2, h3, h4⟩ := scanUnocc_ok_some Hmax b.capacity 0 idx h
    exact ⟨by simpa using h2, h3, fun j hj => h4 j (Nat.zero_le j) hj⟩

theorem BitVec.unoccFirst_some_vec {v : BitVec} {idx : Nat}
    (h : v.unoccFirst = .ok (some idx)) :
    idx < v.capacity ∧ v.contains idx = false ∧ ∀ j, j < idx → v.contains j = true := by
  unfold BitVec.unoccFirst at h
  by_cases hr : (wsub v.capacity v.len == 0) = true
  · rw [if_pos hr] at h
    exact absurd h (by simp)
  · rw [if_neg hr] at h
    have Hmax := contains_of_word_max (BitVec.contains_word_vec v)
    obtain ⟨h1, h2, h3, h4⟩ := scanUnocc_ok_some Hmax v.capacity 0 idx h
    exact ⟨by simpa using h2, h3, fun j hj => h4 j (Nat.zero_le j) hj⟩

/-- BitArray::len, the sum of the two popcounts, counts exactly the set
positions below the capacity. -/
theorem BitArray.len_eq_filter (b : BitArray) :
    b.len = ((rng 0 128).filter b.contains).length := by
  rw [show (128 : Nat) = 64 + 64 from rfl, rng_append, List.filter_append,
    List.length_append]
  unfold BitArray.len
  have hl : (rng 0 64).filter b.contains = (rng 0 64).filter fun i => b.e0.testBit i := by
    apply List.filter_congr
    intro i hi
    have : i < 64 := (mem_rng.mp hi).2
    rw [BitArray.contains_eq_testBit, if_pos this]
  have hr : ((rng (0 + 64) 64).filter b.contains).length = popcount b.e1 := by
    rw [show (0 + 64 : Nat) = 0 + 64 from rfl, rng_add 64 0 64, length_filter_map]
    unfold popcount
    congr 1
    apply List.filter_congr
    intro i hi
    have : i < 64 := (mem_rng.mp hi).2
    rw [BitArray.contains_eq_testBit]
    rw [if_neg (by omega), if_pos (by omega)]
    norm_num
  rw [hl, hr]
  rfl

theorem findSet_eq_none {contains : Nat → Bool} :
    ∀ n c, (rng c n).filter contains = [] → findSet contains n c = none := by
  intro n
  induction n with
  | zero => intro c _; rfl
  | succ m ih =>
    intro c h
    rw [rng, List.filter_cons] at h
    by_cases hc : contains c = true
    · rw [if_pos hc] at h
      exact absurd h (by simp)
    · rw [if_neg hc] at h
      unfold findSet
      rw [if_neg hc]
      exact ih (c + 1) h

theorem filter_rng_cons {contains : Nat → Bool} :
    ∀ n c i t, (rng c n).filter contains = i :: t →
      findSet contains n c = some i ∧ c ≤ i ∧ i < c + n ∧
      t = (rng (i + 1) (c + n - (i + 1))).filter contains := by
  intro n
  induction n with
  | zero => intro c i t h; simp [rng] at h
  | succ m ih =>
    intro c i t h
    rw [rng, List.filter_cons] at h
    by_cases hc : contains c = true
    · rw [if_pos hc] at h
      obtain ⟨rfl, rfl⟩ : c = i ∧ (rng (c + 1) m).filter contains = t := by
        cases h; exact ⟨rfl, rfl⟩
      refine ⟨by unfold findSet; rw [if_pos hc], Nat.le_refl c, by omega, ?_⟩
      rw [show c + (m + 1) - (c + 1) = m from by omega]
    · rw [if_neg hc] at h
      obtain ⟨hf, hci, hlt, ht⟩ := ih (c + 1) i t h
      refine ⟨by unfold findSet; rw [if_neg hc]; exact hf, by omega, by omega, ?_⟩
      rw [show c + (m + 1) - (i + 1) = c + 1 + m - (i + 1) from by omega]
      exact ht

/-- The Occupied / IntoOccupied stream equals the ascending list of set
positions of the remaining range, as long as neither the fuel nor the
remaining counter cuts it short. -/
theorem occStream_spec {contains : Nat → Bool} {cap : Nat} :
    ∀ fuel c r, ((rng c (cap - c)).filter contains).length ≤ fuel →
      ((rng c (cap - c)).filter contains).length ≤ r →
      occStream contains cap fuel ⟨c, r⟩ = (rng c (cap - c)).filter contains := by
  intro fuel
  induction fuel with
  | zero =>
    intro c r h1 _
    rw [List.length_eq_zero.mp (Nat.le_zero.mp h1)]
    rfl
  | succ f ih =>
    intro c r h1 h2
    cases hL : (rng c (cap - c)).filter contains with
    | nil =>
      simp only [occStream]
      unfold occNext
      by_cases hr : (r == 0) = true
      · rw [if_pos hr]
      · rw [if_neg hr, findSet_eq_none _ _ hL]
    | cons i t =>
      obtain ⟨hfind, hci, hlt, ht⟩ := filter_rng_cons _ _ _ _ hL
      have hcc : c < cap := by
        by_contra hnc
        rw [show cap - c = 0 from by omega] at hL
        simp [rng] at hL
      have hr0 : r ≠ 0 := by
        rw [hL] at h2
        simp at h2
        omega
      rw [show c + (cap - c) - (i + 1) = cap - (i + 1) from by omega] at ht
      simp only [occStream]
      unfold occNext
      rw [if_neg (by simpa using hr0), hfind]
      dsimp only
      rw [hL] at h1 h2
      simp only [List.length_cons] at h1 h2
      rw [ih (i + 1) (r - 1) (by rw [← ht]; omega) (by rw [← ht]; omega), ← ht]

theorem BitArray.insert_ok {b : BitArray} {i : Nat} (hi : i < 128) :
    ∃ b', b.insert i = .ok b' ∧ ∀ q, b'.contains q = (b.contains q || q == i) := by
  by_cases h0 : i < 64
  · refine ⟨⟨b.e0 ||| 1 <<< (i % 64), b.e1⟩, ?_, ?_⟩
    · unfold BitArray.insert computeIndex BitArray.word? BitArray.setWord
      have hd : i / 64 = 0 := by omega
      simp [hd]
    · intro q
      have hm : i % 64 = i := by omega
      rw [BitArray.contains_eq_testBit, BitArray.contains_eq_testBit]
      dsimp only
      by_cases hq0 : q < 64
      · rw [if_pos hq0, if_pos hq0, hm, shiftLeft_one_eq, Nat.testBit_lor]
        by_cases hqi : q = i
        · subst hqi
          simp [Nat.testBit_two_pow_self]
        · rw [Nat.testBit_two_pow_of_ne fun hh => hqi hh.symm]
          simp [hqi]
      · have hqi : q ≠ i := by omega
        by_cases hq1 : q < 128 <;> simp [hq0, hq1, hqi]
  · refine ⟨⟨b.e0, b.e1 ||| 1 <<< (i % 64)⟩, ?_, ?_⟩
    · unfold BitArray.insert computeIndex BitArray.word? BitArray.setWord
      have hd : i / 64 = 1 := by omega
      simp [hd]
    · intro q
      have hm : i % 64 = i - 64 := by omega
      rw [BitArray.contains_eq_testBit, BitArray.contains_eq_testBit]
      dsimp only
      by_cases hq0 : q < 64
      · have hqi : q ≠ i := by omega
        simp [hq0, hqi]
      · by_cases hq1 : q < 128
        · rw [if_neg hq0, if_neg hq0, if_pos hq1, if_pos hq1, hm, shiftLeft_one_eq,
            Nat.testBit_lor]
          by_cases hqi : q = i
          · subst hqi
            simp [Nat.testBit_two_pow_self]
          · rw [Nat.testBit_two_pow_of_ne fun hh => hqi (by omega)]
            simp [hqi]
        · have hqi : q ≠ i := by omega
          simp [hq0, hq1, hqi]

theorem BitVec.insert_eq {v : BitVec} {i e : Nat}
    (he : getAt v.entries (i / 64) = some e) :
    v.insert i =
      .ok ⟨setAt v.entries (i / 64) (e ||| 1 <<< (i % 64)), wadd v.count 1, v.vcap⟩ := by
  unfold BitVec.insert computeIndex BitVec.word?
  simp [he]

theorem BitVec.contains_after_set {v : BitVec} {i e : Nat}
    (he : getAt v.entries (i / 64) = some e) (c vc q : Nat) :
    (BitVec.mk (setAt v.entries (i / 64) (e ||| 1 <<< (i % 64))) c vc).contains q
      = (v.contains q || q == i) := by
  rw [BitVec.contains_word_vec, BitVec.contains_word_vec]
  unfold BitVec.word?
  dsimp only
  by_cases hw : q / 64 = i / 64
  · rw [hw, getAt_setAt_self _ (getAt_lt_length he), he]
    dsimp only [Option.map_some', Option.getD_some]
    rw [shiftLeft_one_eq, Nat.testBit_lor]
    by_cases hq : q % 64 = i % 64
    · have hqi : q = i := by omega
      subst hqi
      simp [Nat.testBit_two_pow_self]
    · rw [Nat.testBit_two_pow_of_ne fun hh => hq hh.symm]
      have hqi : q ≠ i := fun hh => hq (by rw [hh])
      simp [hqi]
  · rw [getAt_setAt_of_ne _ hw]
    have hqi : q ≠ i := fun hh => hw (by rw [hh])
    simp [hqi]

theorem BitVec.withCapacity_contains (c q : Nat) :
    (BitVec.withCapacity c).contains q = false := by
  rw [BitVec.contains_word_vec]
  unfold BitVec.word? BitVec.withCapacity
  dsimp only
  rw [getAt_replicate]
  by_cases h : q / 64 < c
  · simp [h, Nat.zero_testBit]
  · simp [h]

theorem copyInto_ok {l : List Nat} :
    ∀ v : BitVec, (∀ x ∈ l, x / 64 < v.entries.length) →
      ∃ v', copyInto l v = .ok v' ∧
        v'.entries.length = v.entries.length ∧ v'.vcap = v.vcap ∧
        ∀ q, v'.contains q = (v.contains q || decide (q ∈ l)) := by
  induction l with
  | nil =>
    intro v _
    exact ⟨v, rfl, rfl, rfl, fun q => by simp⟩
  | cons i t ih =>
    intro v hb
    obtain ⟨e, he⟩ := exists_getAt_of_lt (hb i (List.mem_cons_self i t))
    have hlen : (setAt v.entries (i / 64) (e ||| 1 <<< (i % 64))).length = v.entries.length :=
      length_setAt _ _ _
    obtain ⟨v', hc, hl, hv, hq⟩ :=
      ih (BitVec.mk (setAt v.entries (i / 64) (e ||| 1 <<< (i % 64))) (wadd v.count 1) v.vcap)
        (by intro x hx; rw [hlen]; exact hb x (List.mem_cons_of_mem i hx))
    refine ⟨v', ?_, by rw [hl]; exact hlen, hv, fun q => ?_⟩
    · unfold copyInto
      rw [BitVec.insert_eq he]
      exact hc
    · rw [hq, BitVec.contains_after_set he]
      by_cases hqi : q = i
      · subst hqi
        simp
      · by_cases hqt : q ∈ t <;> simp [hqi, hqt, Bool.or_assoc]

theorem BitArray.contains_lt {b : BitArray} {q : Nat} (h : b.contains q = true) :
    q < 128 := by
  by_contra hq
  rw [BitArray.contains_eq_testBit, if_neg (by omega), if_neg (by omega)] at h
  exact absurd h (by simp)

/-- The full drain of BitArray::occupied is the ascending list of set
positions. -/
theorem BitArray.occList_eq (b : BitArray) :
    b.occList = (rng 0 128).filter b.contains := by
  unfold BitArray.occList
  have hcap : b.capacity - 0 = 128 := rfl
  have hlen : ((rng 0 (b.capacity - 0)).filter b.contains).length = b.len := by
    rw [hcap]
    exact (BitArray.len_eq_filter b).symm
  rw [occStream_spec b.len 0 b.len (le_of_eq hlen) (le_of_eq hlen), hcap]

/-- C1.  The claim says remove(k) returns Some(v) exactly when k is
occupied and otherwise None without panicking or changing state.  The code
violates it: starting from Slab::new, after insert(10), insert(11),
remove(0), the key 1 still holds 11 and is reported occupied, yet remove(1)
returns None - BitArray::remove tests contains(index/64) = contains(0)
instead of contains(1) - and it also silently clears key 1's occupancy bit
(the length drops from 1 to 0), mutating the state. -/
theorem c1_remove_occupied_returns_none :
    (Slab.new Nat).insertR 10 = .ok (0, slabA) ∧
    slabA.insertR 11 = .ok (1, slabB) ∧
    slabB.removeR 0 = .ok (some 10, slabC) ∧
    slabC.containsKey 1 = true ∧ slabC.len = 1 ∧
    slabC.removeR 1 = .ok (none, ⟨.arr ⟨0, 0⟩, [none, some 11]⟩) := by
  decide

/-- C2.  The claim says an insertion writes only into the chosen vacant
slot and never displaces an existing stored value.  The code violates it:
in the state reached by insert(10), insert(11), remove(0), a further
insert(12) goes to position 0 but Slab::insert uses Vec::insert, which
shifts the suffix right; the value 11 moves from slot 1 to slot 2 while
key 1 stays marked occupied, and get(1) now reads the vacated
uninitialized slot (undefined behavior) instead of returning 11. -/
theorem c2_insert_displaces_existing_value :
    slabC.containsKey 1 = true ∧ slabC.get 1 = .ok (some 11) ∧
    slabC.insertR 12 = .ok (0, slabD) ∧
    slabD.containsKey 1 = true ∧ slabD.get 1 = .err ∧
    getAt slabD.entries 2 = some (some 11) := by
  decide

/-- C3.  The claim says every finite operation sequence produces identical
observable results on the slab and on a conforming reference slot
allocator.  The code violates it on insert 10, insert 11, remove 0,
remove 1: the oracle's second removal returns Some(11), the slab's returns
None. -/
theorem c3_differential_divergence :
    runBeton diffOps (Slab.new Nat) =
      .ok [Obs.key 0, Obs.key 1, Obs.removed (some 10), Obs.removed none] ∧
    runOracle diffOps ⟨[]⟩ =
      [Obs.key 0, Obs.key 1, Obs.removed (some 10), Obs.removed (some 11)] := by
  decide

/-- C4.  The claim says every iteration view, in particular the mutable
one, yields exactly the occupied entries and never a vacant slot.  The
code violates it: in the state reached by insert(10), insert(11),
remove(0), the only occupied key is 1 (holding 11), but values_mut()'s
first call computes a skip of 0 whenever there is no previous index, so it
yields the vacant uninitialized slot 0 (undefined behavior) instead of the
value at position 1. -/
theorem c4_values_mut_reads_vacant_slot :
    slabC.index.occList = [1] ∧ slabC.len = 1 ∧
    getAt slabC.entries 1 = some (some 11) ∧
    slabC.valuesMutList = [none] := by
  decide

/-- C5.  The claim says insert never fails: with no unoccupied position at
current capacity the slab grows and retries rather than panicking.  The
code violates it on the dynamic backend: on a full BitVec-backed slab
(every one of the 8192 positions occupied, reachable by 8192 insertions
from Slab::with_capacity(128)) the unoccupied iterator yields None and
Slab::insert unwraps it, panicking; no growth path exists there. -/
theorem c5_insert_panics_on_full_dynamic_index :
    slabFull.len = 8192 ∧ slabFull.capacity = 8192 ∧
    slabFull.insertR 42 = .err := by
  decide

/-- C6.  The claim says clear() drops every currently occupied value
exactly once.  The code violates it: Slab::clear runs entries.clear() on a
Vec of MaybeUninit slots, whose destructors never run the stored values'
destructors, so the value 10 held by the slab is leaked - the list of
dropped values is empty - even though the structure does end up empty with
its index capacity retained. -/
theorem c6_clear_drops_no_values :
    (Slab.new Nat).insertR 10 = .ok (0, slabA) ∧
    slabA.len = 1 ∧ getAt slabA.entries 0 = some (some 10) ∧
    slabA.clearD = (⟨.arr ⟨0, 0⟩, []⟩, ([] : List Nat)) ∧
    (slabA.clearD).1.len = 0 ∧ (slabA.clearD).1.capacity = 128 ∧
    ((slabA.clearD).1.clearD).1 = (slabA.clearD).1 := by
  decide

/-- C7 counterexample.  The claim quantifies over every slab state; on the
full dynamic-backend state slabFull the inner insert of
remove(insert(v)) already panics (see C5), so the composite is not
Some(v) there. -/
theorem c7_counterexample_full_slab_insert_panics :
    slabFull.insertR 7 = .err := by
  decide

/-- C9 counterexample.  The claim says the slot array's length always
equals the Index's capacity and that with_capacity(n) produces n vacant
slots.  Already the freshly created slab refutes both: Slab::new (=
with_capacity(0)) has an empty slot Vec but an inline Index of capacity
128, and with_capacity(5) also has 0 slots, not 5. -/
theorem c9_counterexample_new_slab :
    (Slab.new Nat).entries.length = 0 ∧ (Slab.new Nat).capacity = 128 ∧
    (Slab.new Nat).entries.length ≠ (Slab.new Nat).capacity ∧
    (Slab.withCapacity Nat 5).entries.length = 0 := by
  decide

/-- C10 counterexample.  The claim quantifies over every insertion at or
beyond the inline capacity; at position 16384 = 64 * 256 the promotion
still happens (the doubling resize allocates a 256-word BitVec), but the
retried insert indexes word 256 of that 256-word vector and panics, so no
post-state exists in which the position is set. -/
theorem c10_counterexample_huge_position_panics :
    Indexer.insert (.arr ⟨1, 0⟩) 16384 = .err := by
  decide

/-- C10 (amended).  For an insertion at a position at or beyond the inline
capacity 128 but below the promoted dynamic range of 16384 positions (the
doubling resize allocates a 256-word BitVec), the Indexer promotes from the
inline BitArray to the dynamic BitVec and membership is preserved exactly:
afterwards a position is set if and only if it was set before or it is the
inserted position - so previously set bits survive, the new position is
set, and no other position appears. -/
theorem c10_promotion_preserves_membership (b : BitArray) (p : Nat)
    (h1 : 128 ≤ p) (h2 : p < 16384) :
    ∃ v1 : BitVec, Indexer.insert (.arr b) p = .ok (.vec v1) ∧
      ∀ q, (Indexer.vec v1).contains q = (b.contains q || q == p) := by
  have hocc : b.occList = (rng 0 128).filter b.contains := BitArray.occList_eq b
  have hbound : ∀ x ∈ b.occList, x / 64 < (BitVec.withCapacity 256).entries.length := by
    intro x hx
    rw [hocc, List.mem_filter] at hx
    have hxr := (mem_rng.mp hx.1).2
    unfold BitVec.withCapacity
    simp only [List.length_replicate]
    omega
  obtain ⟨v0, hcopy, hlen0, hv0, hq0⟩ := copyInto_ok (BitVec.withCapacity 256) hbound
  have hlt : p / 64 < v0.entries.length := by
    rw [hlen0]
    unfold BitVec.withCapacity
    simp only [List.length_replicate]
    omega
  obtain ⟨e, he⟩ := exists_getAt_of_lt hlt
  have hmem : ∀ q, (q ∈ b.occList) ↔ b.contains q = true := by
    intro q
    rw [hocc, List.mem_filter, mem_rng]
    constructor
    · exact fun h => h.2
    · intro h
      exact ⟨⟨Nat.zero_le q, by simpa using BitArray.contains_lt h⟩, h⟩
  refine ⟨⟨setAt v0.entries (p / 64) (e ||| 1 <<< (p % 64)), wadd v0.count 1, v0.vcap⟩, ?_, ?_⟩
  · show Indexer.insert (.arr b) p = _
    unfold Indexer.insert
    dsimp only
    rw [if_pos (show p ≥ b.capacity from h1)]
    unfold Indexer.resize
    dsimp only
    rw [if_pos (show b.capacity * 2 > b.capacity from by norm_num [BitArray.capacity])]
    rw [show b.capacity * 2 = 256 from by norm_num [BitArray.capacity], hcopy]
    dsimp only [Res.map]
    rw [BitVec.insert_eq he]
  · intro q
    show (BitVec.mk (setAt v0.entries (p / 64) (e ||| 1 <<< (p % 64)))
      (wadd v0.count 1) v0.vcap).contains q = _
    rw [BitVec.contains_after_set he, hq0 q, BitVec.withCapacity_contains]
    simp only [Bool.false_or]
    cases hbq : b.contains q
    · have : ¬(q ∈ b.occList) := fun hh => by rw [hmem q, hbq] at hh; exact absurd hh (by simp)
      simp [this]
    · have : q ∈ b.occList := (hmem q).mpr hbq
      simp [this]

/-- C10 witness: inserting position 200 into an inline index holding bits
0 and 2 promotes to the dynamic backend keeping 0 and 2, setting 200, and
leaving 3 clear. -/
theorem c10_promotion_witness :
    ∃ v1 : BitVec, Indexer.insert (.arr ⟨5, 0⟩) 200 = .ok (.vec v1) ∧
      (Indexer.vec v1).contains 0 = true ∧ (Indexer.vec v1).contains 2 = true ∧
      (Indexer.vec v1).contains 200 = true ∧ (Indexer.vec v1).contains 3 = false := by
  obtain ⟨v1, he, hq⟩ :=
    c10_promotion_preserves_membership ⟨5, 0⟩ 200 (by norm_num) (by norm_num)
  refine ⟨v1, he, ?_, ?_, ?_, ?_⟩ <;> rw [hq] <;> decide

/-- C9 (amended).  with_capacity(n) produces a slab with an empty slot
array (Vec::with_capacity only reserves; slots materialize on insertion)
and an Index whose capacity is 128 for n below 128 and 64 * n otherwise,
hence always at least n. -/
theorem c9_with_capacity_spec (n : Nat) :
    (Slab.withCapacity Nat n).entries.length = 0 ∧
    (Slab.withCapacity Nat n).capacity = (if n < 128 then 128 else 64 * n) ∧
    n ≤ (Slab.withCapacity Nat n).capacity := by
  refine ⟨rfl, ?_, ?_⟩
  · show (Indexer.withCapacity n).capacity = _
    unfold Indexer.withCapacity
    by_cases h : n < 64 * 2
    · rw [if_pos h, if_pos (show n < 128 from by omega)]
      rfl
    · rw [if_neg h, if_neg (show ¬n < 128 from by omega)]
      rfl
  · show n ≤ (Indexer.withCapacity n).capacity
    unfold Indexer.withCapacity
    by_cases h : n < 64 * 2
    · rw [if_pos h]
      show n ≤ 128
      omega
    · rw [if_neg h]
      show n ≤ 64 * n
      omega

theorem BitArray.word?_isSome {b : BitArray} {w : Nat} (h : w < 2) :
    ∃ e, b.word? w = some e := by
  unfold BitArray.word?
  rcases (show w = 0 ∨ w = 1 from by omega) with rfl | rfl
  · exact ⟨b.e0, rfl⟩
  · exact ⟨b.e1, by simp⟩

/-- The hit flag Slab::remove trusts: strip Indexer::remove and
BitArray::remove down to the word lookup and the (shadowed) contains test. -/
theorem Indexer.remove_snd_arr (b : BitArray) (i e : Nat)
    (hw : b.word? (i / 64) = some e) (hc : b.contains (i / 64) = true) :
    (Indexer.remove (.arr b) i).2 = true := by
  unfold Indexer.remove
  dsimp only
  unfold BitArray.remove
  dsimp only [computeIndex]
  rw [hw]
  exact hc

/-- Same as Indexer.remove_snd_arr for the dynamic backend. -/
theorem Indexer.remove_snd_vec (v : BitVec) (i e : Nat)
    (hw : getAt v.entries (i / 64) = some e) (hc : v.contains (i / 64) = true) :
    (Indexer.remove (.vec v) i).2 = true := by
  unfold Indexer.remove
  dsimp only
  unfold BitVec.remove
  dsimp only [computeIndex]
  unfold BitVec.word?
  rw [hw]
  exact hc

/-- C7 (amended).  For every value v and every slab state on which
insert(v) completes normally - returning key k rather than panicking on a
full dynamic index or a desynchronized slot array - immediately removing k
returns Some(v): the key always lands on the freshly written slot, and the
shadowed occupancy test inside remove happens to pass because the allocated
position is the lowest free one, so every lower position (in particular
position k / 64) is occupied. -/
theorem c7_insert_remove_roundtrip {T : Type} (s : Slab T) (v : T) (k : Nat)
    (s' : Slab T) (h : s.insertR v = .ok (k, s')) :
    ∃ o : Slab T, s'.removeR k = .ok (some v, o) := by
  unfold Slab.insertR at h
  cases hu : s.index.unoccFirst with
  | err => rw [hu] at h; exact absurd h (by simp)
  | ok oidx =>
    rw [hu] at h
    cases oidx with
    | none => exact absurd h (by simp)
    | some idx =>
      dsimp only at h
      cases hins : s.index.insert idx with
      | err => rw [hins] at h; exact absurd h (by simp)
      | ok ix =>
        rw [hins] at h
        dsimp only at h
        cases hia : insAt idx (some v) s.entries with
        | none => rw [hia] at h; exact absurd h (by simp)
        | some es =>
          rw [hia] at h
          dsimp only at h
          simp only [Res.ok.injEq, Prod.mk.injEq] at h
          obtain ⟨rfl, rfl⟩ := h
          have hread : getAt es idx = some (some v) := insAt_getAt hia
          suffices hhit : (ix.remove idx).2 = true by
            refine ⟨⟨(ix.remove idx).1, setAt es idx none⟩, ?_⟩
            unfold Slab.removeR
            dsimp only
            rw [hhit]
            simp only [if_pos]
            rw [hread]
          cases hxi : s.index with
          | arr b =>
            rw [hxi] at hu hins
            have hbc : b.capacity = 128 := rfl
            unfold Indexer.unoccFirst at hu
            dsimp only at hu
            cases hbu : b.unoccFirst with
            | err => rw [hbu] at hu; exact absurd hu (by simp)
            | ok ob =>
              rw [hbu] at hu
              cases ob with
              | some i =>
                dsimp only at hu
                simp only [Res.ok.injEq, Option.some.injEq] at hu
                obtain rfl := hu
                obtain ⟨hid128, hnc, hbelow⟩ := BitArray.unoccFirst_some hbu
                unfold Indexer.insert at hins
                dsimp only at hins
                rw [if_neg (show ¬i ≥ b.capacity from by rw [hbc]; omega)] at hins
                obtain ⟨b1, hb1, hb1q⟩ := BitArray.insert_ok hid128
                rw [hb1] at hins
                dsimp only [Res.map] at hins
                simp only [Res.ok.injEq] at hins
                obtain rfl := hins
                obtain ⟨e, hww⟩ := BitArray.word?_isSome (show i / 64 < 2 from by omega)
                refine Indexer.remove_snd_arr b1 i e hww ?_
                rw [hb1q]
                by_cases h0 : i = 0
                · subst h0
                  simp
                · rw [hbelow (i / 64) (Nat.div_lt_self (by omega) (by omega))]
                  simp
              | none =>
                dsimp only at hu
                simp only [Res.ok.injEq, Option.some.injEq] at hu
                obtain rfl := hu
                have hall := BitArray.unoccFirst_none hbu
                unfold Indexer.insert at hins
                dsimp only at hins
                rw [if_pos (show (64 * 2 : Nat) ≥ b.capacity from by rw [hbc])] at hins
                unfold Indexer.resize at hins
                dsimp only at hins
                rw [if_pos (show b.capacity * 2 > b.capacity from by rw [hbc]; omega)] at hins
                rw [show b.capacity * 2 = 256 from by rw [hbc]] at hins
                have hocc : b.occList = rng 0 128 := by
                  rw [BitArray.occList_eq]
                  apply List.filter_eq_self.mpr
                  intro a ha
                  exact hall a (by simpa using (mem_rng.mp ha).2)
                have hbound :
                    ∀ x ∈ b.occList, x / 64 < (BitVec.withCapacity 256).entries.length := by
                  intro x hx
                  rw [hocc, mem_rng] at hx
                  unfold BitVec.withCapacity
                  simp only [List.length_replicate]
                  omega
                obtain ⟨v0, hcopy, hlen0, hv0, hq0⟩ := copyInto_ok (BitVec.withCapacity 256) hbound
                rw [hcopy] at hins
                dsimp only [Res.map] at hins
                have hlt : (64 * 2 : Nat) / 64 < v0.entries.length := by
                  rw [hlen0]
                  unfold BitVec.withCapacity
                  simp only [List.length_replicate]
                  omega
                obtain ⟨e, he⟩ := exists_getAt_of_lt hlt
                rw [BitVec.insert_eq he] at hins
                simp only [Res.ok.injEq] at hins
                obtain rfl := hins
                have hset : getAt (setAt v0.entries (64 * 2 / 64) (e ||| 1 <<< (64 * 2 % 64)))
                    (64 * 2 / 64) = some (e ||| 1 <<< (64 * 2 % 64)) :=
                  getAt_setAt_self _ hlt
                refine Indexer.remove_snd_vec _ (64 * 2) _ hset ?_
                rw [BitVec.contains_after_set he]
                rw [hq0, BitVec.withCapacity_contains]
                have h2 : (64 * 2 / 64 : Nat) ∈ b.occList := by
                  rw [hocc, mem_rng]
                  omega
                simp [h2]
          | vec w =>
            rw [hxi] at hu hins
            have hwu : w.unoccFirst = .ok (some idx) := hu
            obtain ⟨hcap, hnc, hbelow⟩ := BitVec.unoccFirst_some_vec hwu
            unfold Indexer.insert at hins
            dsimp only at hins
            cases hwi : w.insert idx with
            | err => rw [hwi] at hins; exact absurd hins (by simp [Res.map])
            | ok w1 =>
              rw [hwi] at hins
              dsimp only [Res.map] at hins
              simp only [Res.ok.injEq] at hins
              obtain rfl := hins
              unfold BitVec.insert at hwi
              dsimp only [computeIndex] at hwi
              unfold BitVec.word? at hwi
              cases hwd : getAt w.entries (idx / 64) with
              | none => rw [hwd] at hwi; exact absurd hwi (by simp)
              | some e =>
                rw [hwd] at hwi
                dsimp only at hwi
                simp only [Res.ok.injEq] at hwi
                obtain rfl := hwi.symm
                have hset : getAt (setAt w.entries (idx / 64) (e ||| 1 <<< (idx % 64)))
                    (idx / 64) = some (e ||| 1 <<< (idx % 64)) :=
                  getAt_setAt_self _ (getAt_lt_length hwd)
                refine Indexer.remove_snd_vec _ idx _ hset ?_
                rw [BitVec.contains_after_set hwd]
                by_cases h0 : idx = 0
                · subst h0
                  simp
                · rw [hbelow (idx / 64) (Nat.div_lt_self (by omega) (by omega))]
                  simp

/-- C7 witness: in the state reached by insert(10), insert(11), remove(0),
inserting 7 yields key 0 and immediately removing key 0 returns Some(7). -/
theorem c7_insert_remove_roundtrip_witness :
    ∃ o : Slab Nat,
      (Slab.mk (.arr ⟨3, 0⟩) [some 7, none, some 11]).removeR 0 = .ok (some 7, o) :=
  c7_insert_remove_roundtrip slabC 7 0 ⟨.arr ⟨3, 0⟩, [some 7, none, some 11]⟩ (by decide)

theorem occNext_some_inv {contains : Nat → Bool} {cap : Nat} {s : OccSt} {i : Nat}
    {s' : OccSt} (h : occNext contains cap s = (some i, s')) :
    s' = ⟨i + 1, s.remaining - 1⟩ := by
  unfold occNext at h
  by_cases hr : (s.remaining == 0) = true
  · rw [if_pos hr] at h
    exact absurd h (by simp)
  · rw [if_neg hr] at h
    cases hf : findSet contains (cap - s.cursor) s.cursor with
    | some j =>
      rw [hf] at h
      dsimp only at h
      simp only [Prod.mk.injEq, Option.some.injEq] at h
      rw [← h.1]
      exact h.2.symm
    | none =>
      rw [hf] at h
      exact absurd h (by simp)

theorem occStream_cons_inv {contains : Nat → Bool} {cap : Nat} {s : OccSt} {i : Nat}
    {L : List Nat} (h : occStream contains cap s.remaining s = i :: L) :
    occNext contains cap s = (some i, ⟨i + 1, s.remaining - 1⟩) ∧
    occStream contains cap (s.remaining - 1) ⟨i + 1, s.remaining - 1⟩ = L := by
  cases hr : s.remaining with
  | zero =>
    rw [hr] at h
    exact absurd h (by simp [occStream])
  | succ r =>
    rw [hr] at h
    simp only [occStream] at h
    cases hn : occNext contains cap s with
    | mk oi s1 =>
      rw [hn] at h
      cases oi with
      | none => exact absurd h (by simp)
      | some j =>
        dsimp only at h
        simp only [List.cons.injEq] at h
        obtain ⟨rfl, hL⟩ := h
        have hs1 : s1 = OccSt.mk (j + 1) (s.remaining - 1) := occNext_some_inv hn
        subst hs1
        refine ⟨by rw [hr], ?_⟩
        rw [hr] at hL
        simpa using hL

/-- The Drop impl of the consuming iterators drains the rest of the
occupied stream and drops exactly the values stored at those positions. -/
theorem teardownAux_spec {T : Type} (inner : Indexer) (val : Nat → T) :
    ∀ (L : List Nat) (occ : OccSt) (entries : List (Option T)),
      occStream inner.contains inner.capacity occ.remaining occ = L →
      (∀ i ∈ L, getAt entries i = some (some (val i))) →
      teardownAux inner occ.remaining occ entries = .ok (L.map val) := by
  intro L
  induction L with
  | nil =>
    intro occ entries hst _
    cases hr : occ.remaining with
    | zero => rfl
    | succ r =>
      rw [hr] at hst
      simp only [occStream] at hst
      simp only [teardownAux]
      cases hn : occNext inner.contains inner.capacity occ with
      | mk oi s1 =>
        rw [hn] at hst
        cases oi with
        | none => rfl
        | some j => exact absurd hst (by simp)
  | cons i L' ih =>
    intro occ entries hst hval
    obtain ⟨hn, hst'⟩ := occStream_cons_inv hst
    have hr0 : occ.remaining ≠ 0 := by
      intro hz
      rw [hz] at hst
      exact absurd hst (by simp [occStream])
    obtain ⟨r, hr⟩ := Nat.exists_eq_succ_of_ne_zero hr0
    rw [hr] at hn hst'
    simp only [Nat.succ_sub_one] at hn hst'
    rw [hr]
    simp only [teardownAux]
    rw [hn]
    dsimp only
    rw [hval i (List.mem_cons_self i L')]
    dsimp only
    rw [ih ⟨i + 1, r⟩ entries (by simpa using hst')
      (fun j hj => hval j (List.mem_cons_of_mem i hj))]
    rfl

/-- n successful calls of IntoIter::next against a state whose occupied
stream is L with all slots initialized: they yield the first n positions
paired with their values, and leave a state whose stream is the rest, with
the untouched slots still initialized. -/
theorem runIntoIter_spec {T : Type} (val : Nat → T) :
    ∀ (n : Nat) (st : IntoIterSt T) (L : List Nat),
      occStream st.inner.contains st.inner.capacity st.occ.remaining st.occ = L →
      (∀ i ∈ L, getAt st.entries i = some (some (val i))) →
      L.Nodup →
      n ≤ L.length →
      ∃ st' : IntoIterSt T,
        runIntoIter n st = .ok ((L.take n).map (fun i => (i, val i)), st') ∧
        st'.inner = st.inner ∧
        occStream st'.inner.contains st'.inner.capacity st'.occ.remaining st'.occ =
          L.drop n ∧
        (∀ i ∈ L.drop n, getAt st'.entries i = some (some (val i))) := by
  intro n
  induction n with
  | zero =>
    intro st L hst hval _ _
    exact ⟨st, rfl, rfl, by simpa using hst, by simpa using hval⟩
  | succ m ih =>
    intro st L hst hval hnd hlen
    cases L with
    | nil => simp at hlen
    | cons i L' =>
      obtain ⟨hn, hst'⟩ := occStream_cons_inv hst
      have hrd : getAt st.entries i = some (some (val i)) :=
        hval i (List.mem_cons_self i L')
      have hnext : st.next = .ok (some (i, val i),
          ⟨st.inner, ⟨i + 1, st.occ.remaining - 1⟩, setAt st.entries i none⟩) := by
        unfold IntoIterSt.next
        rw [hn]
        dsimp only
        rw [hrd]
      have hnd' : L'.Nodup := (List.nodup_cons.mp hnd).2
      have hni : i ∉ L' := (List.nodup_cons.mp hnd).1
      obtain ⟨st', hrun, hinner, hstream, hvals⟩ :=
        ih ⟨st.inner, ⟨i + 1, st.occ.remaining - 1⟩, setAt st.entries i none⟩ L'
          (by simpa using hst')
          (fun j hj => by
            rw [show getAt (setAt st.entries i none) j = getAt st.entries j from
              getAt_setAt_of_ne none fun hji => hni (hji ▸ hj)]
            exact hval j (List.mem_cons_of_mem i hj))
          hnd' (by simpa using hlen)
      refine ⟨st', ?_, by rw [hinner], by simpa using hstream, by simpa using hvals⟩
      show runIntoIter (m + 1) st = _
      unfold runIntoIter
      rw [hnext]
      dsimp only
      rw [hrun]
      rfl

/-- C8.  If a consuming iterator over a Slab whose index is in sync with
its slot storage (the stored length counts the occupied positions, and
every occupied position holds an initialized value - val gives the value at
each occupied position) is dropped after yielding n of the occupied
entries, its teardown drops exactly the values at the remaining occupied
positions, in order; the occupied position list has no duplicates, so each
remaining value is dropped exactly once and no yielded position is ever
dropped. -/
theorem c8_partial_into_iter_drops_remaining {T : Type} (s : Slab T) (val : Nat → T)
    (hlen : s.index.len = ((rng 0 s.index.capacity).filter s.index.contains).length)
    (hval : ∀ i ∈ (rng 0 s.index.capacity).filter s.index.contains,
      getAt s.entries i = some (some (val i)))
    (n : Nat) (hn : n ≤ s.index.len) :
    s.intoIterPartial n =
      .ok ((((rng 0 s.index.capacity).filter s.index.contains).take n).map
          (fun i => (i, val i)),
        (((rng 0 s.index.capacity).filter s.index.contains).drop n).map val) ∧
    ((rng 0 s.index.capacity).filter s.index.contains).Nodup := by
  have hnd : ((rng 0 s.index.capacity).filter s.index.contains).Nodup :=
    (rng_nodup 0 s.index.capacity).filter s.index.contains
  have hcap0 : s.index.capacity - 0 = s.index.capacity := Nat.sub_zero _
  have hst : occStream s.index.contains s.index.capacity s.index.len ⟨0, s.index.len⟩ =
      (rng 0 s.index.capacity).filter s.index.contains := by
    have := @occStream_spec s.index.contains s.index.capacity
      s.index.len 0 s.index.len (by rw [hcap0, ← hlen]) (by rw [hcap0, ← hlen])
    rw [hcap0] at this
    exact this
  obtain ⟨st', hrun, hinner, hstream, hvals⟩ :=
    runIntoIter_spec val n (IntoIterSt.init s)
      ((rng 0 s.index.capacity).filter s.index.contains) hst hval hnd
      (by rw [← hlen]; exact hn)
  have htd : st'.teardown =
      .ok ((((rng 0 s.index.capacity).filter s.index.contains).drop n).map val) := by
    unfold IntoIterSt.teardown
    exact teardownAux_spec st'.inner val _ st'.occ st'.entries hstream hvals
  refine ⟨?_, hnd⟩
  unfold Slab.intoIterPartial
  rw [hrun]
  dsimp only
  rw [htd]
  rfl

/-- C8 witness: the slab holding 10 at key 0 and 11 at key 1, consumed for
one item then dropped, yields (0, 10) and tears down dropping exactly 11. -/
theorem c8_partial_into_iter_witness :
    slabB.intoIterPartial 1 = .ok ([(0, 10)], [11]) ∧
    ((rng 0 slabB.index.capacity).filter slabB.index.contains).Nodup := by
  obtain ⟨h1, h2⟩ := c8_partial_into_iter_drops_remaining slabB (fun i => 10 + i)
    (by decide) (by decide) 1 (by decide)
  exact ⟨h1.trans (by decide), h2⟩

end Beton
